import Mathlib

/-!
Verification development for the swissarmyhammer workflow runtime.

The definitions below are a shallow embedding of the Rust sources:

* `src/swissarmyhammer/src/workflow/run.rs` — `WorkflowRunId`,
  `WorkflowRunStatus`, `WorkflowRun` and its operations `new`,
  `transition_to`, `complete`, `fail`.
* `src/swissarmyhammer-tools/src/mcp/tools/issues/merge/mod.rs` —
  `MergeIssueTool::execute`.
* `src/swissarmyhammer/src/mcp/tool_handlers.rs` — lock usage of
  `handle_issue_work` / `handle_issue_merge`.

Timestamps (`chrono::DateTime<Utc>`) are modelled as naturals supplied by
the caller in place of `chrono::Utc::now()`.  File-system effects of the
abort-marker cleanup are modelled by an explicit `FsState` value.
-/

/-- `StateId` newtype from the workflow module; modelled as its string. -/
abbrev StateId := String

/-- Timestamps stand in for `chrono::DateTime<chrono::Utc>`. -/
abbrev Timestamp := Nat

/-- The part of the `Workflow` definition that `run.rs` reads:
its name and its designated initial state. -/
structure Workflow where
  name : String
  initial_state : StateId
deriving DecidableEq

/-- `WorkflowRunStatus` from `run.rs`. -/
inductive WorkflowRunStatus
  | Running
  | Completed
  | Failed
  | Cancelled
  | Paused
deriving DecidableEq

/-- Result of `std::fs::remove_file` as observed by `WorkflowRun::new`:
success, `ErrorKind::NotFound`, or any other I/O error. -/
inductive RemoveFileResult
  | ok
  | notFound
  | otherError
deriving DecidableEq

/-- Abstract file-system state for the abort marker
`.swissarmyhammer/.abort`: whether the marker file exists, and whether
removing it fails with an I/O error other than not-found. -/
structure FsState where
  abortMarker : Bool
  removeFailsOther : Bool
deriving DecidableEq

/-- Model of `std::fs::remove_file(".swissarmyhammer/.abort")`. -/
def removeAbortFile (fs : FsState) : RemoveFileResult × FsState :=
  if fs.removeFailsOther then (.otherError, fs)
  else if fs.abortMarker then (.ok, { fs with abortMarker := false })
  else (.notFound, fs)

/-- `WorkflowRun` from `run.rs`.  The JSON context values and the metadata
map are modelled as association lists of strings. -/
structure WorkflowRun where
  id : Nat
  workflow : Workflow
  current_state : StateId
  history : List (StateId × Timestamp)
  context : List (String × String)
  status : WorkflowRunStatus
  started_at : Timestamp
  completed_at : Option Timestamp
  metadata : List (String × String)

/-- `WorkflowRun::new`: best-effort abort-marker cleanup (its result is
ignored — every arm of the source `match` falls through), then the run is
constructed with status `Running`, history seeded with the initial state,
and empty context.  The generated run id and the current time are
parameters of the embedding. -/
def WorkflowRun.new (workflow : Workflow) (id : Nat) (now : Timestamp)
    (fs : FsState) : WorkflowRun × FsState :=
  let cleanup := removeAbortFile fs
  ({ id := id
     workflow := workflow
     current_state := workflow.initial_state
     history := [(workflow.initial_state, now)]
     context := []
     status := .Running
     started_at := now
     completed_at := none
     metadata := [] }, cleanup.2)

/-- `WorkflowRun::transition_to`: push `(state_id, now)` onto the history
and set `current_state`. -/
def WorkflowRun.transition_to (r : WorkflowRun) (state_id : StateId)
    (now : Timestamp) : WorkflowRun :=
  { r with history := r.history ++ [(state_id, now)], current_state := state_id }

/-- `WorkflowRun::complete`: set status `Completed` and `completed_at`. -/
def WorkflowRun.complete (r : WorkflowRun) (now : Timestamp) : WorkflowRun :=
  { r with status := .Completed, completed_at := some now }

/-- `WorkflowRun::fail`: set status `Failed` and `completed_at`. -/
def WorkflowRun.fail (r : WorkflowRun) (now : Timestamp) : WorkflowRun :=
  { r with status := .Failed, completed_at := some now }

/-- One mutating call on a `WorkflowRun`, with the wall-clock time the
call observes. -/
inductive RunOp
  | transition (s : StateId) (now : Timestamp)
  | complete (now : Timestamp)
  | fail (now : Timestamp)
deriving DecidableEq

/-- Whether an operation is a terminal transition (`complete` / `fail`). -/
def RunOp.isTerminal : RunOp → Bool
  | .transition _ _ => false
  | .complete _ => true
  | .fail _ => true

/-- Apply one operation to a run. -/
def applyOp (r : WorkflowRun) : RunOp → WorkflowRun
  | .transition s now => r.transition_to s now
  | .complete now => r.complete now
  | .fail now => r.fail now

/-- Apply a sequence of operations, oldest first. -/
def applyOps (r : WorkflowRun) (ops : List RunOp) : WorkflowRun :=
  ops.foldl applyOp r

/-- The run produced by `WorkflowRun::new` (ignoring the file-system
component). -/
def initialRun (w : Workflow) (id : Nat) (now : Timestamp) (fs : FsState) :
    WorkflowRun :=
  (WorkflowRun.new w id now fs).1

/-- The history invariant of a run relative to a workflow. -/
def RunInv (w : Workflow) (r : WorkflowRun) : Prop :=
  r.workflow = w ∧
  r.history ≠ [] ∧
  r.history.head?.map Prod.fst = some w.initial_state ∧
  r.history.getLast?.map Prod.fst = some r.current_state

lemma runInv_initial (w : Workflow) (id : Nat) (now : Timestamp)
    (fs : FsState) : RunInv w (initialRun w id now fs) := by
  refine ⟨rfl, by simp [initialRun, WorkflowRun.new], ?_, ?_⟩ <;>
    simp [initialRun, WorkflowRun.new]

lemma head?_append_singleton {α : Type _} (l : List α) (x : α) :
    (l ++ [x]).head? = l.head?.or (some x) := by
  simp [List.head?_append]

lemma runInv_applyOp (w : Workflow) (r : WorkflowRun) (op : RunOp)
    (h : RunInv w r) : RunInv w (applyOp r op) := by
  obtain ⟨hw, hne, hhead, hlast⟩ := h
  cases op with
  | transition s now =>
      obtain ⟨a, t, hcons⟩ := List.exists_cons_of_ne_nil hne
      refine ⟨hw, by simp [applyOp, WorkflowRun.transition_to], ?_, ?_⟩
      · have h1 : ((a :: t).head?).map Prod.fst = some w.initial_state := by
          rw [← hcons]; exact hhead
        simp only [applyOp, WorkflowRun.transition_to, hcons]
        simpa using h1
      · simp [applyOp, WorkflowRun.transition_to, List.getLast?_concat]
  | complete now => exact ⟨hw, hne, hhead, hlast⟩
  | fail now => exact ⟨hw, hne, hhead, hlast⟩

lemma runInv_applyOps (w : Workflow) (r : WorkflowRun) (ops : List RunOp)
    (h : RunInv w r) : RunInv w (applyOps r ops) := by
  induction ops generalizing r with
  | nil => exact h
  | cons op ops ih => exact ih _ (runInv_applyOp w r op h)

/-- Claim C1: for every run produced by `WorkflowRun::new` and then
mutated by any sequence of `transition_to`, `complete` and `fail` calls,
the history is never empty, its first entry's state is the workflow's
initial state, and its last entry's state is `current_state`. -/
theorem run_history_invariant (w : Workflow) (id now : Nat) (fs : FsState)
    (ops : List RunOp) :
    (applyOps (initialRun w id now fs) ops).history ≠ [] ∧
    (applyOps (initialRun w id now fs) ops).history.head?.map Prod.fst =
      some w.initial_state ∧
    (applyOps (initialRun w id now fs) ops).history.getLast?.map Prod.fst =
      some (applyOps (initialRun w id now fs) ops).current_state := by
  have h := runInv_applyOps w (initialRun w id now fs) ops
    (runInv_initial w id now fs)
  exact ⟨h.2.1, h.2.2.1, h.2.2.2⟩

/-- Claim C9: `transition_to(s)` appends exactly one entry `(s, now)` to
the history, sets `current_state` to `s`, removes no existing entries
(the old history is a prefix of the new one), and — given that the clock
reading `now` is at least every timestamp already in the history, as
`chrono::Utc::now()` provides on a non-decreasing clock — the appended
entry's timestamp is at least the previous last entry's timestamp. -/
theorem transition_to_appends (r : WorkflowRun) (s : StateId)
    (now : Timestamp) (hclock : ∀ p ∈ r.history, p.2 ≤ now) :
    (r.transition_to s now).history = r.history ++ [(s, now)] ∧
    (r.transition_to s now).current_state = s ∧
    r.history <+: (r.transition_to s now).history ∧
    (r.transition_to s now).history.getLast? = some (s, now) ∧
    (∀ q, r.history.getLast? = some q → q.2 ≤ now) := by
  refine ⟨rfl, rfl, ⟨[(s, now)], rfl⟩, ?_, ?_⟩
  · simp [WorkflowRun.transition_to, List.getLast?_concat]
  · intro q hq
    exact hclock q (List.mem_of_mem_getLast? hq)

/-- Witness for C9 at a concrete run: one transition from the freshly
created run. -/
theorem transition_to_appends_witness :
    (((initialRun ⟨"w", "start"⟩ 0 5 ⟨false, false⟩).transition_to
        "working" 7).history =
      [("start", 5), ("working", 7)]) ∧
    ((initialRun ⟨"w", "start"⟩ 0 5 ⟨false, false⟩).transition_to
        "working" 7).current_state = "working" := by
  have h := transition_to_appends (initialRun ⟨"w", "start"⟩ 0 5 ⟨false, false⟩)
    "working" 7 (by decide)
  exact ⟨h.1, h.2.1⟩

/-- Claim C3, counterexample: the claim says that once `completed_at` is
`Some`, no later operation overwrites it.  But `complete` followed by
`fail` (each a plain field assignment in `run.rs`) overwrites the
completion timestamp: after `[complete 1]` it is `some 1`, after
`[complete 1, fail 2]` it is `some 2`. -/
theorem completed_at_overwrite_cex :
    (applyOps (initialRun ⟨"w", "start"⟩ 0 0 ⟨false, false⟩)
        [.complete 1]).completed_at = some 1 ∧
    (applyOps (initialRun ⟨"w", "start"⟩ 0 0 ⟨false, false⟩)
        [.complete 1, .fail 2]).completed_at = some 2 ∧
    (applyOps (initialRun ⟨"w", "start"⟩ 0 0 ⟨false, false⟩)
        [.complete 1, .fail 2]).completed_at ≠
      (applyOps (initialRun ⟨"w", "start"⟩ 0 0 ⟨false, false⟩)
        [.complete 1]).completed_at := by
  refine ⟨rfl, rfl, by decide⟩

/-- Claim C3, amended: for every reachable run, `completed_at` is `None`
iff the status is `Running`; once `Some`, no later operation clears it
back to `None`; and no non-terminal operation (`transition_to`) ever
changes it — only a repeated terminal call (`complete` / `fail`), which
per the spec the Executor and not `Run` must guard, overwrites it. -/
theorem completed_at_invariant (w : Workflow) (id now : Nat) (fs : FsState)
    (ops₁ ops₂ : List RunOp)
    (h₂ : ∀ op ∈ ops₂, op.isTerminal = false) :
    ((applyOps (initialRun w id now fs) (ops₁ ++ ops₂)).completed_at = none ↔
      (applyOps (initialRun w id now fs) (ops₁ ++ ops₂)).status = .Running) ∧
    (∀ ops₃ : List RunOp,
      (applyOps (initialRun w id now fs) ops₁).completed_at.isSome = true →
      (applyOps (initialRun w id now fs) (ops₁ ++ ops₃)).completed_at.isSome
        = true) ∧
    (applyOps (initialRun w id now fs) (ops₁ ++ ops₂)).completed_at =
      (applyOps (initialRun w id now fs) ops₁).completed_at := by
  have key : ∀ (ops : List RunOp) (r : WorkflowRun),
      (r.completed_at = none ↔ r.status = .Running) →
      ((applyOps r ops).completed_at = none ↔
        (applyOps r ops).status = .Running) := by
    intro ops
    induction ops with
    | nil => intro r h; exact h
    | cons op ops ih =>
        intro r h
        cases op with
        | transition s t => exact ih _ h
        | complete t => exact ih _ (by simp [applyOp, WorkflowRun.complete])
        | fail t => exact ih _ (by simp [applyOp, WorkflowRun.fail])
  have keep : ∀ (ops : List RunOp) (r : WorkflowRun),
      r.completed_at.isSome = true →
      (applyOps r ops).completed_at.isSome = true := by
    intro ops
    induction ops with
    | nil => intro r h; exact h
    | cons op ops ih =>
        intro r h
        cases op with
        | transition s t => exact ih _ h
        | complete t => exact ih _ (by simp [applyOp, WorkflowRun.complete])
        | fail t => exact ih _ (by simp [applyOp, WorkflowRun.fail])
  have stable : ∀ (ops : List RunOp) (r : WorkflowRun),
      (∀ op ∈ ops, op.isTerminal = false) →
      (applyOps r ops).completed_at = r.completed_at := by
    intro ops
    induction ops with
    | nil => intro r _; rfl
    | cons op ops ih =>
        intro r h
        cases op with
        | transition s t =>
            have := ih (r.transition_to s t) fun o ho => h o (List.mem_cons_of_mem _ ho)
            simpa [applyOps, applyOp, WorkflowRun.transition_to] using this
        | complete t => exact absurd (h _ (List.mem_cons_self _ _)) (by simp [RunOp.isTerminal])
        | fail t => exact absurd (h _ (List.mem_cons_self _ _)) (by simp [RunOp.isTerminal])
  refine ⟨?_, ?_, ?_⟩
  · exact key _ _ (by simp [initialRun, WorkflowRun.new])
  · intro ops₃ h
    have : applyOps (initialRun w id now fs) (ops₁ ++ ops₃) =
        applyOps (applyOps (initialRun w id now fs) ops₁) ops₃ := by
      simp [applyOps, List.foldl_append]
    rw [this]
    exact keep _ _ h
  · have : applyOps (initialRun w id now fs) (ops₁ ++ ops₂) =
        applyOps (applyOps (initialRun w id now fs) ops₁) ops₂ := by
      simp [applyOps, List.foldl_append]
    rw [this]
    exact stable _ _ h₂

/-- Witness for the amended C3: `complete` at time 1 followed by a
non-terminal transition keeps `completed_at = some 1` and the iff holds. -/
theorem completed_at_invariant_witness :
    ((applyOps (initialRun ⟨"w", "start"⟩ 0 0 ⟨false, false⟩)
        ([.complete 1] ++ [.transition "s" 2])).completed_at = none ↔
      (applyOps (initialRun ⟨"w", "start"⟩ 0 0 ⟨false, false⟩)
        ([.complete 1] ++ [.transition "s" 2])).status = .Running) ∧
    (applyOps (initialRun ⟨"w", "start"⟩ 0 0 ⟨false, false⟩)
        ([.complete 1] ++ [.transition "s" 2])).completed_at =
      (applyOps (initialRun ⟨"w", "start"⟩ 0 0 ⟨false, false⟩)
        [.complete 1]).completed_at := by
  have h := completed_at_invariant ⟨"w", "start"⟩ 0 0 ⟨false, false⟩
    [.complete 1] [.transition "s" 2] (by decide)
  exact ⟨h.1, h.2.2⟩

/-- Claim C4: `WorkflowRun::new` removes the abort marker when it exists,
treats a missing marker as a no-op, and — in every case, including a
marker-removal failure with an I/O error other than not-found — still
returns a run with status `Running`, history seeded with the initial
state, and empty context. -/
theorem new_run_clears_abort (w : Workflow) (id now : Nat) (fs : FsState) :
    (WorkflowRun.new w id now fs).1.status = .Running ∧
    (WorkflowRun.new w id now fs).1.history = [(w.initial_state, now)] ∧
    (WorkflowRun.new w id now fs).1.context = [] ∧
    (WorkflowRun.new w id now fs).1.current_state = w.initial_state ∧
    (fs.removeFailsOther = false →
      (WorkflowRun.new w id now fs).2.abortMarker = false) ∧
    (fs.abortMarker = false → fs.removeFailsOther = false →
      (removeAbortFile fs).1 = .notFound) ∧
    (fs.removeFailsOther = true → (WorkflowRun.new w id now fs).2 = fs) := by
  obtain ⟨m, f⟩ := fs
  cases m <;> cases f <;>
    simp [WorkflowRun.new, removeAbortFile]

/-- Witness for C4: with the marker present and removal succeeding, the
marker is removed and the run starts Running; with a failing removal the
run still starts Running. -/
theorem new_run_clears_abort_witness :
    (WorkflowRun.new ⟨"w", "start"⟩ 0 0 ⟨true, false⟩).2.abortMarker = false ∧
    (WorkflowRun.new ⟨"w", "start"⟩ 0 0 ⟨true, false⟩).1.status = .Running ∧
    (WorkflowRun.new ⟨"w", "start"⟩ 0 0 ⟨true, true⟩).1.status = .Running :=
  ⟨(new_run_clears_abort ⟨"w", "start"⟩ 0 0 ⟨true, false⟩).2.2.2.2.1 rfl,
   (new_run_clears_abort ⟨"w", "start"⟩ 0 0 ⟨true, false⟩).1,
   (new_run_clears_abort ⟨"w", "start"⟩ 0 0 ⟨true, true⟩).1⟩

/-- Crockford base-32 alphabet used by the ULID string encoding; its
characters are strictly increasing in code-point order. -/
def crockfordAlphabet : List Char := "0123456789ABCDEFGHJKMNPQRSTVWXYZ".toList

/-- The character of one base-32 digit. -/
def crockfordDigit (d : Nat) : Char := crockfordAlphabet.getD d '0'

/-- Fixed-width big-endian base-32 digit list of `n`. -/
def ulidDigits : Nat → Nat → List Nat
  | 0, _ => []
  | len + 1, n => n / 32 ^ len :: ulidDigits len (n % 32 ^ len)

/-- Modelled from the spec: the `Display` impl of `WorkflowRunId` prints
the inner `ulid::Ulid` (the `ulid` crate is not under `src/`), which is
the canonical fixed-width 26-character Crockford base-32 encoding of the
128-bit value. -/
def ulidChars (n : Nat) : List Char := (ulidDigits 26 n).map crockfordDigit

/-- The `Display` string of a `WorkflowRunId`. -/
def ulidDisplay (n : Nat) : String := String.mk (ulidChars n)

/-- Generator state of the process-wide monotonic ULID source. -/
structure UlidGen where
  last : Nat
deriving DecidableEq

/-- Modelled from the spec: `generate_monotonic_ulid` (not under `src/`)
"must use a counter or random tie-break that preserves ordering" — it
remembers the previously issued identifier and returns the fresh
clock/random sample when that is larger, otherwise the increment of the
previous identifier. -/
def generate_monotonic_ulid (g : UlidGen) (fresh : Nat) : Nat × UlidGen :=
  let id := if g.last < fresh then fresh else g.last + 1
  (id, ⟨id⟩)

/-- The identifiers produced by a sequence of `WorkflowRunId::new()`
calls within one process, given the clock/random sample of each call. -/
def genIds (g : UlidGen) : List Nat → List Nat
  | [] => []
  | f :: fs =>
    let p := generate_monotonic_ulid g f
    p.1 :: genIds p.2 fs

lemma genIds_gt (fs : List Nat) (g : UlidGen) :
    ∀ x ∈ genIds g fs, g.last < x := by
  induction fs generalizing g with
  | nil => intro x hx; cases hx
  | cons f fs ih =>
      intro x hx
      rcases List.mem_cons.mp hx with h | h
      · subst h
        by_cases hc : g.last < f <;>
          simp [generate_monotonic_ulid, hc]
      · have h1 := ih ⟨(generate_monotonic_ulid g f).1⟩ x h
        have h2 : g.last < (generate_monotonic_ulid g f).1 := by
          by_cases hc : g.last < f <;>
            simp [generate_monotonic_ulid, hc]
        exact lt_trans h2 h1

lemma genIds_chain (fs : List Nat) (g : UlidGen) :
    List.Chain' (· < ·) (genIds g fs) := by
  induction fs generalizing g with
  | nil => exact List.chain'_nil
  | cons f fs ih =>
      rw [genIds, List.chain'_cons']
      refine ⟨?_, ih _⟩
      intro y hy
      exact genIds_gt fs _ y (List.mem_of_mem_head? hy)

lemma ulidDigits_bound (len : Nat) :
    ∀ n, n < 32 ^ len → ∀ d ∈ ulidDigits len n, d < 32 := by
  induction len with
  | zero => intro n _ d hd; cases hd
  | succ len ih =>
      intro n hn d hd
      rw [ulidDigits] at hd
      rcases List.mem_cons.mp hd with h | h
      · subst h
        have h32 : 0 < 32 ^ len := Nat.pos_pow_of_pos len (by norm_num)
        rw [Nat.div_lt_iff_lt_mul h32]
        calc n < 32 ^ (len + 1) := hn
          _ = 32 * 32 ^ len := by ring
      · exact ih (n % 32 ^ len)
          (Nat.mod_lt n (Nat.pos_pow_of_pos len (by norm_num))) d h

lemma ulidDigits_lt (len : Nat) :
    ∀ m n, m < n → n < 32 ^ len →
      List.Lex (· < ·) (ulidDigits len m) (ulidDigits len n) := by
  induction len with
  | zero => intro m n hmn hn; omega
  | succ len ih =>
      intro m n hmn hn
      rw [ulidDigits, ulidDigits]
      have hB : 0 < 32 ^ len := Nat.pos_pow_of_pos len (by norm_num)
      have hdle : m / 32 ^ len ≤ n / 32 ^ len :=
        Nat.div_le_div_right (le_of_lt hmn)
      rcases lt_or_eq_of_le hdle with hlt | heq
      · exact List.Lex.rel hlt
      · rw [heq]
        refine List.Lex.cons (ih _ _ ?_ (Nat.mod_lt n hB))
        have hm := Nat.div_add_mod m (32 ^ len)
        have hn' := Nat.div_add_mod n (32 ^ len)
        rw [heq] at hm
        omega

lemma crockfordDigit_mono :
    ∀ e, e < 32 → ∀ d, d < e → crockfordDigit d < crockfordDigit e := by
  decide

lemma lex_map_crockford {ds es : List Nat}
    (h : List.Lex (· < ·) ds es) (hb : ∀ e ∈ es, e < 32) :
    List.Lex (· < ·) (ds.map crockfordDigit) (es.map crockfordDigit) := by
  induction h with
  | nil => exact List.Lex.nil
  | @cons a l₁ l₂ h ih =>
      exact List.Lex.cons (ih fun e he => hb e (List.mem_cons_of_mem _ he))
  | @rel a₁ l₁ a₂ l₂ h =>
      exact List.Lex.rel
        (crockfordDigit_mono a₂ (hb a₂ (List.mem_cons_self _ _)) a₁ h)

lemma ulidDisplay_lt {m n : Nat} (hmn : m < n) (hn : n < 32 ^ 26) :
    ulidDisplay m < ulidDisplay n := by
  rw [String.lt_iff_toList_lt]
  show List.Lex (· < ·) (ulidChars m) (ulidChars n)
  exact lex_map_crockford (ulidDigits_lt 26 m n hmn hn)
    (ulidDigits_bound 26 n hn)

/-- Claim C2: within one process, every sequence of
`WorkflowRunId::new()` calls yields identifiers that are strictly
increasing under `Ord`, and whose `Display` string encodings are
lexicographically increasing in the same creation order (identifiers are
bounded by the 26-digit base-32 encoding range, which contains every
128-bit ULID). -/
theorem run_ids_monotonic (g : UlidGen) (fs : List Nat)
    (hbound : ∀ x ∈ genIds g fs, x < 32 ^ 26) :
    List.Pairwise (fun a b => a < b ∧ ulidDisplay a < ulidDisplay b)
      (genIds g fs) := by
  have hpw : List.Pairwise (· < ·) (genIds g fs) :=
    List.chain'_iff_pairwise.mp (genIds_chain fs g)
  refine List.Pairwise.imp_of_mem ?_ hpw
  intro a b ha hb hab
  exact ⟨hab, ulidDisplay_lt hab (hbound b hb)⟩

/-- Witness for C2: two successive creations (fresh samples 5 then 3,
exercising the same-tick tie-break) give ids 5 and 6, ordered both as
values and as display strings. -/
theorem run_ids_monotonic_witness :
    (∀ x ∈ genIds ⟨0⟩ [5, 3], x < 32 ^ 26) ∧
    List.Pairwise (fun a b => a < b ∧ ulidDisplay a < ulidDisplay b)
      (genIds ⟨0⟩ [5, 3]) :=
  ⟨by decide, run_ids_monotonic ⟨0⟩ [5, 3] (by decide)⟩

/-- Issue data as read from the issue store by the merge tool. -/
structure IssueInfo where
  name : String
  completed : Bool
deriving DecidableEq

/-- Outcome of `MergeIssueTool::execute`: a protocol-level error
(`Err(McpError)`), an error response (`Ok(create_error_response(..))`), a
success response (`Ok(create_success_response(..))`), or a panic raised
while formatting the success message. -/
inductive MergeOutcome
  | protocolError (msg : String)
  | errorResponse (msg : String)
  | success (msg : String)
  | crashed
deriving DecidableEq

/-- A call made on the version-control handle. -/
inductive GitCall
  | mergeBranch (issue : String)
  | findTarget (issue : String)
  | lastCommit
  | deleteBranch (branch : String)
deriving DecidableEq

/-- Outcomes of the git operations the tool may invoke, supplied as
inputs of the embedding (`GitOperations` itself is not under `src/`). -/
structure GitOutcomes where
  available : Bool
  mergeResult : Except String Unit
  targetResult : Except String String
  commitInfoResult : Except String String
  deleteResult : Except String Unit

/-- Modelled from the spec: `McpErrorHandler::handle_error` (not under
`src/`) wraps a storage or git error into a protocol-level error carrying
the operation context and the error text. -/
def mcpHandleError (e ctx : String) : String := ctx ++ ": " ++ e

/-- Boolean test that `p` is a prefix of `l`. -/
def listIsPfx : List Char → List Char → Bool
  | [], _ => true
  | _ :: _, [] => false
  | a :: p, b :: l => a == b && listIsPfx p l

/-- `pat` occurs contiguously in the list (model of `str::contains`). -/
def listHasSub (pat : List Char) : List Char → Bool
  | [] => listIsPfx pat []
  | b :: l => listIsPfx pat (b :: l) || listHasSub pat l

/-- Rust `haystack.contains(pattern)` on strings. -/
def strContains (hay pat : String) : Bool := listHasSub pat.toList hay.toList

/-- The substring inspection of merge failures in
`MergeIssueTool::execute` (lines 142-146 of `merge/mod.rs`). -/
def isIrrecoverableMergeError (e : String) : Bool :=
  strContains e "does not exist" || strContains e "deleted" ||
    strContains e "CONFLICT" || strContains e "Automatic merge failed"

/-- Splitting a character list at `'|'` (Rust `str::split('|')`). -/
def splitOnPipe : List Char → List (List Char)
  | [] => [[]]
  | c :: rest =>
    let r := splitOnPipe rest
    if c == '|' then [] :: r
    else
      match r with
      | [] => [[c]]
      | f :: fs => (c :: f) :: fs

/-- The `Vec<&str>` of `'|'`-separated fields of a commit-info string. -/
def splitFields (s : String) : List String := (splitOnPipe s.toList).map String.mk

/-- UTF-8 byte length of a character list (Rust `str::len`). -/
def utf8Len (l : List Char) : Nat := l.foldr (fun c n => c.utf8Size + n) 0

/-- Model of the Rust byte slice `&s[..n]`: `some` prefix when byte `n`
is a character boundary within `s`, `none` (a panic) when the string is
shorter than `n` bytes or byte `n` falls inside a character. -/
def takeUtf8Bytes : Nat → List Char → Option (List Char)
  | 0, _ => some []
  | _ + 1, [] => none
  | n + 1, c :: cs =>
    if c.utf8Size ≤ n + 1 then
      (takeUtf8Bytes (n + 1 - c.utf8Size) cs).map (c :: ·)
    else none

/-- The commit-info block appended to the merge success message (lines
100-116 of `merge/mod.rs`); `none` models the panic of
`&parts[0][..8]`. -/
def formatCommitInfo (info : String) : Option String :=
  let parts := splitFields info
  if 4 ≤ parts.length then
    match takeUtf8Bytes 8 (parts.headD "").toList with
    | none => none
    | some h =>
      some ("\n\nMerge commit: " ++ String.mk h ++ "\nMessage: " ++
        parts.getD 1 "" ++ "\nAuthor: " ++ parts.getD 2 "" ++
        "\nDate: " ++ parts.getD 3 "")
  else some ("\n\nMerge commit: " ++ info)

/-- `MergeIssueTool::execute` from
`src/swissarmyhammer-tools/src/mcp/tools/issues/merge/mod.rs`, as a
function of the request (`name`, `delete_branch`), the issue-store lookup
result, and the outcomes of the git operations.  Returns the tool outcome
together with the version-control calls performed.  On a merge failure
the source computes `isIrrecoverableMergeError` only to pick a log line;
the returned value is `Err(McpErrorHandler::handle_error(e, ..))` either
way. -/
def MergeIssueTool.execute (name : String) (delete_branch : Bool)
    (issueResult : Except String IssueInfo) (git : GitOutcomes) :
    MergeOutcome × List GitCall :=
  match issueResult with
  | .error e => (.protocolError (mcpHandleError e "get issue for merge"), [])
  | .ok info =>
    if info.completed = false then
      (.errorResponse ("Issue '" ++ name ++ "' must be completed before merging"), [])
    else if git.available = false then
      (.errorResponse "Git operations not available", [])
    else
      match git.mergeResult with
      | .error e =>
        (.protocolError (mcpHandleError e "merge issue branch"),
          [.mergeBranch info.name])
      | .ok _ =>
        let target :=
          match git.targetResult with
          | .ok t => t
          | .error _ => "main"
        let base := "Merged work branch for issue " ++ info.name ++ " to " ++
          target ++ " (determined by git merge-base)"
        let calls₀ := [GitCall.mergeBranch info.name,
          GitCall.findTarget info.name, GitCall.lastCommit]
        match (match git.commitInfoResult with
               | .ok ci => formatCommitInfo ci
               | .error _ => some "") with
        | none => (.crashed, calls₀)
        | some commitInfo =>
          if delete_branch then
            let bname := "issue/" ++ info.name
            match git.deleteResult with
            | .ok _ =>
              (.success (base ++ " and deleted branch " ++ bname ++ commitInfo),
                calls₀ ++ [.deleteBranch bname])
            | .error e =>
              (.success (base ++ " but failed to delete branch: " ++ e ++ commitInfo),
                calls₀ ++ [.deleteBranch bname])
          else (.success (base ++ commitInfo), calls₀)

/-- Claim C7: merging an issue that is not completed yields a
`create_error_response` message (Recoverable, not a protocol-level
`Err`), and no version-control call is made. -/
theorem incomplete_issue_merge_recoverable (name : String) (del : Bool)
    (info : IssueInfo) (issueRes : Except String IssueInfo)
    (git : GitOutcomes) (hres : issueRes = Except.ok info)
    (hinc : info.completed = false) :
    MergeIssueTool.execute name del issueRes git =
      (.errorResponse ("Issue '" ++ name ++ "' must be completed before merging"),
        []) := by
  subst hres
  simp [MergeIssueTool.execute, hinc]

/-- Witness for C7: a concrete incomplete issue. -/
theorem incomplete_issue_merge_recoverable_witness :
    MergeIssueTool.execute "007_fix" false (Except.ok ⟨"007_fix", false⟩)
      ⟨true, .ok (), .ok "main", .ok "h|m|a|d", .ok ()⟩ =
      (.errorResponse "Issue '007_fix' must be completed before merging", []) := by
  have h := incomplete_issue_merge_recoverable "007_fix" false
    ⟨"007_fix", false⟩ (Except.ok ⟨"007_fix", false⟩)
    ⟨true, .ok (), .ok "main", .ok "h|m|a|d", .ok ()⟩ rfl rfl
  simpa using h

/-- Claim C6: the source detects the irrecoverable-state markers, but the
detection only selects a log line — the returned value is
`Err(McpErrorHandler::handle_error(e, "merge issue branch"))` for every
merge failure.  A failure whose text contains `"CONFLICT"` and a failure
whose text contains only an unrelated transient string produce the same
protocol-level error classification; the transient one is not turned into
a Recoverable response, contradicting the claimed classification. -/
theorem merge_error_classification_bug :
    isIrrecoverableMergeError "CONFLICT (content): merge conflict in file" = true ∧
    isIrrecoverableMergeError "temporary network failure" = false ∧
    (MergeIssueTool.execute "x" false (Except.ok ⟨"x", true⟩)
      ⟨true, .error "CONFLICT (content): merge conflict in file",
        .ok "main", .ok "h|m|a|d", .ok ()⟩).1 =
      .protocolError
        (mcpHandleError "CONFLICT (content): merge conflict in file"
          "merge issue branch") ∧
    (MergeIssueTool.execute "x" false (Except.ok ⟨"x", true⟩)
      ⟨true, .error "temporary network failure",
        .ok "main", .ok "h|m|a|d", .ok ()⟩).1 =
      .protocolError
        (mcpHandleError "temporary network failure" "merge issue branch") := by
  exact ⟨by decide, by decide, rfl, rfl⟩

lemma takeUtf8Bytes_short : ∀ (l : List Char) (n : Nat),
    utf8Len l < n → takeUtf8Bytes n l = none := by
  intro l
  induction l with
  | nil =>
      intro n h
      cases n with
      | zero => omega
      | succ m => rfl
  | cons c cs ih =>
      intro n h
      cases n with
      | zero => omega
      | succ m =>
          have hlen : utf8Len (c :: cs) = c.utf8Size + utf8Len cs := rfl
          rw [takeUtf8Bytes]
          by_cases hc : c.utf8Size ≤ m + 1
          · rw [if_pos hc, ih (m + 1 - c.utf8Size) (by omega)]
            rfl
          · rw [if_neg hc]

/-- Claim C10: when the merge succeeds and the last-commit-info string
has at least four `'|'`-separated fields but its first field is shorter
than eight bytes, the unguarded slice `&parts[0][..8]` panics and the
merge operation produces no result. -/
theorem commit_info_slice_panics (name iname : String) (del : Bool)
    (git : GitOutcomes) (ci : String)
    (hga : git.available = true) (hm : git.mergeResult = Except.ok ())
    (hci : git.commitInfoResult = Except.ok ci)
    (h4 : 4 ≤ (splitFields ci).length)
    (hshort : utf8Len ((splitFields ci).headD "").toList < 8) :
    formatCommitInfo ci = none ∧
    (MergeIssueTool.execute name del (Except.ok ⟨iname, true⟩) git).1 =
      .crashed := by
  have hfc : formatCommitInfo ci = none := by
    rw [formatCommitInfo]
    simp only [if_pos h4]
    rw [takeUtf8Bytes_short _ 8 hshort]
  refine ⟨hfc, ?_⟩
  simp [MergeIssueTool.execute, hga, hm, hci, hfc]

/-- Witness for C10: commit info `"abc|m|a|d"` — four fields, first field
three bytes long — crashes the merge tool. -/
theorem commit_info_slice_panics_witness :
    formatCommitInfo "abc|m|a|d" = none ∧
    (MergeIssueTool.execute "x" false (Except.ok ⟨"x", true⟩)
      ⟨true, .ok (), .ok "main", .ok "abc|m|a|d", .ok ()⟩).1 = .crashed := by
  have h := commit_info_slice_panics "x" "x" false
    ⟨true, .ok (), .ok "main", .ok "abc|m|a|d", .ok ()⟩ "abc|m|a|d"
    rfl rfl rfl (by decide) (by decide)
  exact h

/-- Lock acquire/release events of one handler, in program order. -/
inductive LockEvent
  | acqIssueRead
  | acqIssueWrite
  | relIssue
  | acqGit
  | relGit
deriving DecidableEq

/-- Lock events of `MergeIssueTool::execute` on its main path (completed
issue, git available): the `issue_storage` read guard taken at line 66 of
`merge/mod.rs` is never dropped before `context.git_ops.lock()` at line
84; both guards live to the end of the function, where they are dropped
in reverse declaration order. -/
def mergeToolLockTrace : List LockEvent :=
  [.acqIssueRead, .acqGit, .relGit, .relIssue]

/-- Lock events of `ToolHandlers::handle_issue_work`
(`tool_handlers.rs` lines 230-252): explicit `drop(issue_storage)` before
the git lock is taken. -/
def handleIssueWorkLockTrace : List LockEvent :=
  [.acqIssueRead, .relIssue, .acqGit, .relGit]

/-- Lock events of `ToolHandlers::handle_issue_merge`
(`tool_handlers.rs` lines 286-319): explicit `drop(issue_storage)`, then
the working-directory check takes and drops the git lock, then the merge
takes it again. -/
def handleIssueMergeLockTrace : List LockEvent :=
  [.acqIssueRead, .relIssue, .acqGit, .relGit, .acqGit, .relGit]

/-- Whether a trace at some point holds the issue-store lock and the
version-control lock simultaneously. -/
def bothLocksHeld (tr : List LockEvent) : Bool :=
  (tr.foldl (fun st e =>
    match e, st with
    | .acqIssueRead, (_, g, b) => (true, g, b || g)
    | .acqIssueWrite, (_, g, b) => (true, g, b || g)
    | .relIssue, (_, g, b) => (false, g, b)
    | .acqGit, (i, _, b) => (i, true, b || i)
    | .relGit, (i, _, b) => (i, false, b))
    ((false, false, false) : Bool × Bool × Bool)).2.2

/-- Claim C8, counterexample: in `MergeIssueTool::execute` the
issue-store read guard is still held when the version-control lock is
acquired, so this operation holds both locks simultaneously — the claim
that every operation using both releases the issue-store lock first is
false for this operation. -/
theorem merge_tool_holds_both_locks_cex :
    bothLocksHeld mergeToolLockTrace = true := by decide

/-- Claim C8, amended: the `tool_handlers.rs` operations
(`handle_issue_work`, `handle_issue_merge`) release the issue-store lock
before acquiring the version-control lock and never hold both at once,
but `MergeIssueTool::execute` keeps its issue-store read guard alive
across the version-control lock acquisition until function exit, holding
both simultaneously. -/
theorem lock_order_discipline :
    bothLocksHeld handleIssueWorkLockTrace = false ∧
    bothLocksHeld handleIssueMergeLockTrace = false ∧
    bothLocksHeld mergeToolLockTrace = true := by decide

/-- A commit-graph model of the repository: `parents` maps a commit to
its parent commit, `branches` maps branch names to tip commits, and
`fuel` bounds ancestry walks. -/
structure Repo where
  parents : List (Nat × Nat)
  branches : List (String × Nat)
  fuel : Nat

/-- The first branch other than the issue branch whose tip is commit
`c`. -/
def tipOfOther (branches : List (String × Nat)) (issueBranch : String)
    (c : Nat) : Option String :=
  (branches.find? (fun bt => bt.2 == c && bt.1 != issueBranch)).map Prod.fst

/-- Walk up the ancestry from commit `c`, returning the first branch
(other than the issue branch) whose tip is reached. -/
def walkTarget (branches : List (String × Nat)) (issueBranch : String)
    (parents : List (Nat × Nat)) : Nat → Nat → Option String
  | 0, _ => none
  | fuel + 1, c =>
    match tipOfOther branches issueBranch c with
    | some b => some b
    | none =>
      match parents.lookup c with
      | some p => walkTarget branches issueBranch parents fuel p
      | none => none

/-- Modelled from the spec: `GitOperations::find_merge_target_branch` and
`merge_issue_branch_auto` (not under `src/`) "determine the merge target
by walking the branch ancestry (merge-base) rather than assuming a fixed
trunk name" — the walk ascends the issue branch's commit ancestry until
it reaches the tip of another branch, the branch the work branch was
created from. -/
def find_merge_target_branch (repo : Repo) (issueName : String) :
    Except String String :=
  let ib := "issue/" ++ issueName
  match repo.branches.lookup ib with
  | none => .error ("branch " ++ ib ++ " does not exist")
  | some tip =>
    match walkTarget repo.branches ib repo.parents repo.fuel tip with
    | some b => .ok b
    | none => .error "no merge target found"

/-- `k`-fold parent of a commit. -/
def iterParent (parents : List (Nat × Nat)) : Nat → Nat → Option Nat
  | 0, c => some c
  | k + 1, c =>
    match parents.lookup c with
    | some p => iterParent parents k p
    | none => none

/-- The commit reached after `j` parent steps above the issue branch's
tip. -/
def ancestryAt (repo : Repo) (issueName : String) (j : Nat) : Option Nat :=
  (repo.branches.lookup ("issue/" ++ issueName)).bind (iterParent repo.parents j)

/-- The work branch `issue/<issueName>` was created from branch `p`:
walking up from its tip, the commits strictly below step `k` are tips of
no other branch, and the commit at step `k` (within the walk's fuel) is
the tip of `p`. -/
def CreatedFrom (repo : Repo) (issueName p : String) (k : Nat) : Prop :=
  k < repo.fuel ∧
  (∀ j, j < k →
    (ancestryAt repo issueName j).isSome = true ∧
    (ancestryAt repo issueName j).bind
      (fun c => tipOfOther repo.branches ("issue/" ++ issueName) c) = none) ∧
  (ancestryAt repo issueName k).bind
    (fun c => tipOfOther repo.branches ("issue/" ++ issueName) c) = some p

lemma walkTarget_of_path (branches : List (String × Nat)) (ib p : String)
    (parents : List (Nat × Nat)) :
    ∀ k fuel c, k < fuel →
      (∀ j, j < k → ∃ cj, iterParent parents j c = some cj ∧
        tipOfOther branches ib cj = none) →
      (∃ ck, iterParent parents k c = some ck ∧
        tipOfOther branches ib ck = some p) →
      walkTarget branches ib parents fuel c = some p := by
  intro k
  induction k with
  | zero =>
      intro fuel c hf _ hk
      obtain ⟨ck, hck, htip⟩ := hk
      obtain ⟨f, rfl⟩ : ∃ f, fuel = f + 1 := ⟨fuel - 1, by omega⟩
      rw [iterParent] at hck
      cases hck
      rw [walkTarget, htip]
  | succ k ih =>
      intro fuel c hf hj hk
      obtain ⟨f, rfl⟩ : ∃ f, fuel = f + 1 := ⟨fuel - 1, by omega⟩
      obtain ⟨c0, hc0, htip0⟩ := hj 0 (Nat.succ_pos k)
      rw [iterParent] at hc0
      cases hc0
      obtain ⟨ck, hck, htip⟩ := hk
      cases hp : parents.lookup c with
      | none => rw [iterParent, hp] at hck; cases hck
      | some p₁ =>
          rw [walkTarget, htip0, hp]
          refine ih f p₁ (by omega) ?_ ?_
          · intro j hjk
            obtain ⟨cj, hcj, htipj⟩ := hj (j + 1) (by omega)
            rw [iterParent, hp] at hcj
            exact ⟨cj, hcj, htipj⟩
          · rw [iterParent, hp] at hck
            exact ⟨ck, hck, htip⟩

/-- The ancestry walk resolves the merge target to the branch the work
branch was created from. -/
lemma find_merge_target_of_created_from (repo : Repo) (issueName p : String)
    (k : Nat) (h : CreatedFrom repo issueName p k) :
    find_merge_target_branch repo issueName = .ok p := by
  obtain ⟨hfuel, hbelow, hat⟩ := h
  cases hl : repo.branches.lookup ("issue/" ++ issueName) with
  | none =>
      rw [ancestryAt, hl] at hat
      simp at hat
  | some tip =>
      have hwalk : walkTarget repo.branches ("issue/" ++ issueName)
          repo.parents repo.fuel tip = some p := by
        refine walkTarget_of_path repo.branches ("issue/" ++ issueName) p
          repo.parents k repo.fuel tip hfuel ?_ ?_
        · intro j hjk
          obtain ⟨hs, hnone⟩ := hbelow j hjk
          rw [ancestryAt, hl, Option.some_bind] at hs hnone
          cases hc : iterParent repo.parents j tip with
          | none => simp [hc] at hs
          | some cj =>
              rw [hc, Option.some_bind] at hnone
              exact ⟨cj, rfl, hnone⟩
        · rw [ancestryAt, hl, Option.some_bind] at hat
          cases hc : iterParent repo.parents k tip with
          | none => simp [hc] at hat
          | some ck =>
              rw [hc, Option.some_bind] at hat
              exact ⟨ck, rfl, hat⟩
      rw [find_merge_target_branch]
      simp [hl, hwalk]

/-- The merge section of `ToolHandlers::handle_issue_merge`
(`tool_handlers.rs` lines 319-381), reached once the issue has been
looked up, found completed, and the working directory found clean.  It
calls `GitOperations::merge_issue_branch` — the fixed-trunk merge flow,
not the `_auto` merge-base variant — and reports the merge target as the
hardcoded `"main"` in its success message; it never consults the branch
ancestry, so the `targetResult` outcome is unused. -/
def handle_issue_merge (issue_name : String) (delete_branch : Bool)
    (git : GitOutcomes) : MergeOutcome × List GitCall :=
  if git.available = false then
    (.errorResponse "Git operations not available", [])
  else
    match git.mergeResult with
    | .error e =>
      (.errorResponse ("Failed to merge branch: " ++ e),
        [.mergeBranch issue_name])
    | .ok _ =>
      let base := "Merged work branch for issue " ++ issue_name ++ " to main"
      let calls₀ := [GitCall.mergeBranch issue_name, GitCall.lastCommit]
      match (match git.commitInfoResult with
             | .ok ci => formatCommitInfo ci
             | .error _ => some "") with
      | none => (.crashed, calls₀)
      | some commitInfo =>
        if delete_branch then
          let bname := "issue/" ++ issue_name
          match git.deleteResult with
          | .ok _ =>
            (.success (base ++ " and deleted branch " ++ bname ++ commitInfo),
              calls₀ ++ [.deleteBranch bname])
          | .error e =>
            (.success (base ++ " but failed to delete branch: " ++ e ++ commitInfo),
              calls₀ ++ [.deleteBranch bname])
        else (.success (base ++ commitInfo), calls₀)

/-- Claim C5, counterexample: the claim quantifies over every merge
invocation, but `ToolHandlers::handle_issue_merge` does not walk the
branch ancestry.  For the repository in which `issue/007_fix` was created
from the non-trunk parent `release/2` — where the ancestry walk resolves
`release/2` — the handler still reports the hardcoded default trunk
`main` as the merge target. -/
theorem merge_target_hardcoded_cex :
    find_merge_target_branch ⟨[(3, 2), (2, 1)],
      [("main", 1), ("release/2", 2), ("issue/007_fix", 3)], 5⟩
      "007_fix" = .ok "release/2" ∧
    (handle_issue_merge "007_fix" false
      ⟨true, .ok (), .ok "release/2", .error "noinfo", .ok ()⟩).1 =
      .success "Merged work branch for issue 007_fix to main" ∧
    ("main" : String) ≠ "release/2" := by
  exact ⟨rfl, rfl, by decide⟩

/-- Claim C5, amended: merge invocations through
`MergeIssueTool::execute` determine the merge target by walking the
branch ancestry (merge-base), so an issue branch created from a
non-trunk parent resolves to its true parent; but
`ToolHandlers::handle_issue_merge` — the second, fixed-trunk merge flow
that spec §9 itself flags — calls `merge_issue_branch` and reports the
hardcoded target `main` regardless of the branch's ancestry. -/
theorem merge_target_resolution (repo : Repo) (issueName p : String)
    (k : Nat) (iname ce : String) (git : GitOutcomes)
    (h : CreatedFrom repo issueName p k)
    (hga : git.available = true) (hm : git.mergeResult = Except.ok ())
    (hci : git.commitInfoResult = Except.error ce) :
    find_merge_target_branch repo issueName = .ok p ∧
    (handle_issue_merge iname false git).1 =
      .success ("Merged work branch for issue " ++ iname ++ " to main") := by
  refine ⟨find_merge_target_of_created_from repo issueName p k h, ?_⟩
  simp [handle_issue_merge, hga, hm, hci]

/-- Witness for the amended C5: the spec's `issue/007_fix`-from-
`release/2` repository resolves to `release/2` through the ancestry
walk, while the handler path reports `main` for the same situation. -/
theorem merge_target_resolution_witness :
    CreatedFrom ⟨[(3, 2), (2, 1)],
      [("main", 1), ("release/2", 2), ("issue/007_fix", 3)], 5⟩
      "007_fix" "release/2" 1 ∧
    find_merge_target_branch ⟨[(3, 2), (2, 1)],
      [("main", 1), ("release/2", 2), ("issue/007_fix", 3)], 5⟩
      "007_fix" = .ok "release/2" ∧
    (handle_issue_merge "000007_fix" false
      ⟨true, .ok (), .ok "release/2", .error "noinfo", .ok ()⟩).1 =
      .success "Merged work branch for issue 000007_fix to main" := by
  have h := merge_target_resolution ⟨[(3, 2), (2, 1)],
    [("main", 1), ("release/2", 2), ("issue/007_fix", 3)], 5⟩
    "007_fix" "release/2" 1 "000007_fix" "noinfo"
    ⟨true, .ok (), .ok "release/2", .error "noinfo", .ok ()⟩
    ⟨by decide, by decide, by decide⟩ rfl rfl rfl
  exact ⟨⟨by decide, by decide, by decide⟩, h.1, h.2⟩
